import Mathlib

/-!
Verification of the liveness engine (Pacemaker) of the chained-BFT
consensus module, against the repository's specification and tests.

The repository's `src/` tree contains only
`consensus/src/chained_bft/liveness/mod.rs` and
`consensus/src/chained_bft/liveness/pacemaker_test.rs`; the implementation
files they refer to (`pacemaker.rs`, `pacemaker_timeout_manager.rs`) are not
present.  The definitions below therefore model the missing components from
the specification (`spec.md`), kept consistent with the behaviour that the
repository's own tests in `pacemaker_test.rs` pin down.  Rounds are `Nat`,
durations are exact rational numbers of milliseconds, certificates are
records carrying the round they certify (the spec treats their cryptographic
content as opaque), and the Pacemaker's two outbound channels are modelled
as accumulating traces (`events`, `broadcasts`) inside the state.
-/

/-- Modelled from the spec: a Timeout Certificate (TC) — proof that a quorum
of distinct authors abandoned a round.  The spec treats the aggregated
signatures as opaque; the TC carries the round it certifies
(`pacemaker_timeout_manager.rs` is missing from `src/`). -/
structure PacemakerTimeoutCertificate where
  round : Nat
deriving DecidableEq

/-- Modelled from the spec: a Timeout Assertion
`{round, author, optional prior certificate}`, the message type named
`PacemakerTimeout` in the tests (`PacemakerTimeout::new(round, signer, None)`).
Authors are identified by a `Nat`; the optional prior certificate is carried
as evidence and does not influence counting. -/
structure PacemakerTimeout where
  round : Nat
  author : Nat
  priorCert : Option PacemakerTimeoutCertificate
deriving DecidableEq

/-- Reason attached to a Round-Advance event, named `NewRoundReason` in the
tests: `QCReady` or `Timeout` carrying the driving timeout certificate. -/
inductive NewRoundReason where
  | QCReady
  | Timeout (tc : PacemakerTimeoutCertificate)
deriving DecidableEq

/-- A Round-Advance event `{round, reason}`, named `NewRoundEvent` in the
tests. -/
structure NewRoundEvent where
  round : Nat
  reason : NewRoundReason
deriving DecidableEq

/-- The persisted pair `{highest_received_tc, highest_local_tc}`, named
`HighestTimeoutCertificates` in the tests
(`HighestTimeoutCertificates::new(None, None)`). -/
structure HighestTimeoutCertificates where
  highestReceivedTc : Option PacemakerTimeoutCertificate
  highestLocalTc : Option PacemakerTimeoutCertificate
deriving DecidableEq

/-- Round carried by an optional certificate; `0` when absent. -/
def tcRoundOpt : Option PacemakerTimeoutCertificate → Nat
  | none => 0
  | some tc => tc.round

/-- The higher of the two persisted certificate rounds. -/
def HighestTimeoutCertificates.highestRound (htc : HighestTimeoutCertificates) : Nat :=
  max (tcRoundOpt htc.highestReceivedTc) (tcRoundOpt htc.highestLocalTc)

/-- Modelled from the spec: the Highest-Certificate Tracker's update rule
(§4.3) for the locally assembled slot — replace only if the incoming TC's
round exceeds the slot's current round. -/
def HighestTimeoutCertificates.updateLocal (htc : HighestTimeoutCertificates)
    (tc : PacemakerTimeoutCertificate) : HighestTimeoutCertificates :=
  if tcRoundOpt htc.highestLocalTc < tc.round then
    { htc with highestLocalTc := some tc }
  else htc

/-- Insert a timeout assertion into the per-author store: at most one
retained assertion per author, a later assertion (round at least the stored
one) replacing the earlier; an assertion older than the stored one for the
same author is dropped. -/
def insertTimeout (received : List PacemakerTimeout) (t : PacemakerTimeout) :
    List PacemakerTimeout :=
  match received with
  | [] => [t]
  | t' :: rest =>
    if t'.author = t.author then
      if t'.round ≤ t.round then t :: rest else t' :: rest
    else t' :: insertTimeout rest t

/-- Number of distinct authors among the retained assertions. -/
def authorCount (received : List PacemakerTimeout) : Nat :=
  (received.map (·.author)).toFinset.card

/-- Rounds of the retained assertions. -/
def roundsOf (received : List PacemakerTimeout) : List Nat :=
  received.map (·.round)

/-- Number of retained assertion rounds that are at least `r`. -/
def countGe (rounds : List Nat) (r : Nat) : Nat :=
  (rounds.filter (fun x => decide (r ≤ x))).length

/-- Largest element of a list of naturals (`0` for the empty list). -/
def maxList (l : List Nat) : Nat := l.foldr max 0

/-- Largest `k ≤ n` satisfying `p` (and `0` when none does). -/
def maxSatAux (p : Nat → Bool) : Nat → Nat
  | 0 => 0
  | n + 1 => if p (n + 1) then n + 1 else maxSatAux p n

/-- The certified round extracted from the retained assertions: the largest
round `R` such that at least `q` retained assertions are for rounds `≥ R`
(equivalently, the `q`-th highest retained round). -/
def quorumRound (rounds : List Nat) (q : Nat) : Nat :=
  maxSatAux (fun r => decide (q ≤ countGe rounds r)) (maxList rounds)

/-- Modelled from the spec: the Timeout Certificate Aggregator of §4.2,
named `PacemakerTimeoutManager` in the missing
`pacemaker_timeout_manager.rs`.  It keeps the configured quorum size, the
lower bound `minRound` below which assertions are stale (already certified),
and the retained assertions (at most one per author).  Where the spec's §4.2
wording (count authors per exact round) conflicts with the repository's own
test `test_timeout_certificate` — whose comments state that timeouts for
rounds `{1,2,3}` form a "timeout quorum for previous round" `1` — the model
follows the test: an author's assertion for a later round counts toward
every earlier round's quorum, and the certified round is the largest round
reached by at least quorum-many authors. -/
structure PacemakerTimeoutManager where
  quorumSize : Nat
  minRound : Nat
  received : List PacemakerTimeout
deriving DecidableEq

/-- Modelled from the spec: `record(assertion)` of §4.2.  Stale assertions
(round below `minRound`) are silently ignored.  Otherwise the assertion is
inserted by author (later replaces earlier, preventing double counting from
equivocation or retransmission); if the distinct-author count then reaches
quorum, a TC for `quorumRound` is returned and accumulation state for rounds
at or below the certified round is discarded. -/
def PacemakerTimeoutManager.record (m : PacemakerTimeoutManager)
    (t : PacemakerTimeout) :
    PacemakerTimeoutManager × Option PacemakerTimeoutCertificate :=
  if t.round < m.minRound then (m, none)
  else if m.quorumSize ≤ authorCount (insertTimeout m.received t) then
    ({ m with
        minRound := quorumRound (roundsOf (insertTimeout m.received t)) m.quorumSize + 1,
        received := (insertTimeout m.received t).filter
          (fun t' =>
            decide (quorumRound (roundsOf (insertTimeout m.received t)) m.quorumSize
              < t'.round)) },
      some ⟨quorumRound (roundsOf (insertTimeout m.received t)) m.quorumSize⟩)
  else
    ({ m with received := insertTimeout m.received t }, none)

/-- Modelled from the spec: the exponential Time Interval Strategy of §4.1,
named `ExponentialTimeInterval` in the missing `pacemaker.rs`.  Durations
are exact rational numbers of milliseconds; the exponent is pinned at
`maxExponent`, so the duration is never recomputed past the cap and no
overflow can occur for any index. -/
structure ExponentialTimeInterval where
  base : ℚ
  exponentBase : ℚ
  maxExponent : Nat
deriving DecidableEq

/-- A constant interval, as used by the tests:
`ExponentialTimeInterval::fixed(d)` is `new(d, 1.0, 0)`. -/
def ExponentialTimeInterval.fixed (d : ℚ) : ExponentialTimeInterval :=
  ⟨d, 1, 0⟩

/-- Modelled from the spec: `duration_for` / `get_round_duration` —
`base * exponentBase ^ min index maxExponent`, which satisfies
`duration_for(0) = base`, `duration_for(n) = duration_for(n-1) * factor`
for `n ≤ cap`, and `duration_for(n) = duration_for(cap)` for `n > cap`. -/
def ExponentialTimeInterval.getRoundDuration (s : ExponentialTimeInterval)
    (roundIndexAfterCommittedQc : Nat) : ℚ :=
  s.base * s.exponentBase ^ min roundIndexAfterCommittedQc s.maxExponent

/-- Modelled from the spec: the Pacemaker state of §4.4 — current round,
timer index, the aggregator, and the Highest-Certificate Pair — together
with the two outbound channels modelled as traces: `events` is the sequence
of Round-Advance events emitted on the new-round channel (oldest first), and
`broadcasts` the sequence of round numbers of this node's outbound Timeout
Assertions. -/
structure Pacemaker where
  currentRound : Nat
  timerIndex : Nat
  timeoutManager : PacemakerTimeoutManager
  highestTimeoutCertificates : HighestTimeoutCertificates
  events : List NewRoundEvent
  broadcasts : List Nat
deriving DecidableEq

/-- Modelled from the spec: construction (§4.4 Initialization).
`current_round` is seeded from the higher of the explicitly supplied highest
certified round and the persisted highest TC round, plus one, and the timer
index starts at `0`.  The initial Round-Advance event for that round with
reason `QCReady` is pinned down by the tests (`test_basic_qc` and
`test_timeout_certificate` call `expect_qc(1, ..)` before any input is
processed); the spec's Initialization section is silent about it. -/
def Pacemaker.new (quorumSize highestCertifiedRound : Nat)
    (htc : HighestTimeoutCertificates) : Pacemaker :=
  let r := max highestCertifiedRound htc.highestRound + 1
  { currentRound := r
    timerIndex := 0
    timeoutManager := ⟨quorumSize, 0, []⟩
    highestTimeoutCertificates := htc
    events := [⟨r, NewRoundReason.QCReady⟩]
    broadcasts := [] }

/-- Modelled from the spec: the shared advance action of §4.4 — set
`current_round` to the new round, reset `timer_index`, and emit exactly one
Round-Advance event `{round, reason}`. -/
def Pacemaker.advance (p : Pacemaker) (newRound : Nat) (reason : NewRoundReason) :
    Pacemaker :=
  { p with
      currentRound := newRound
      timerIndex := 0
      events := p.events ++ [⟨newRound, reason⟩] }

/-- Modelled from the spec: `process_local_timeout(round)` of §4.4 — ignored
when `round` differs from `current_round` (a stale timer); otherwise this
node's Timeout Assertion for `current_round` is (re)broadcast on the
outbound channel and the timer index is incremented (rearming the timer for
`duration_for(timer_index)`); the current round never changes here. -/
def Pacemaker.processLocalTimeout (p : Pacemaker) (round : Nat) : Pacemaker :=
  if round ≠ p.currentRound then p
  else
    { p with
        broadcasts := p.broadcasts ++ [p.currentRound]
        timerIndex := p.timerIndex + 1 }

/-- Modelled from the spec: `process_remote_timeout(assertion)` of §4.4 —
forward the assertion to the aggregator; if it yields a TC for round `R`
with `R + 1 > current_round`, update the Highest-Certificate Tracker and
advance to `R + 1` with reason `Timeout(tc)`. -/
def Pacemaker.processRemoteTimeout (p : Pacemaker) (t : PacemakerTimeout) :
    Pacemaker :=
  match (p.timeoutManager.record t).2 with
  | none => { p with timeoutManager := (p.timeoutManager.record t).1 }
  | some tc =>
    if p.currentRound < tc.round + 1 then
      Pacemaker.advance
        { p with
            timeoutManager := (p.timeoutManager.record t).1
            highestTimeoutCertificates :=
              p.highestTimeoutCertificates.updateLocal tc }
        (tc.round + 1) (NewRoundReason.Timeout tc)
    else { p with timeoutManager := (p.timeoutManager.record t).1 }

/-- Modelled from the spec: `process_certificates(round, qc_round?, tc_round?)`
of §4.4 — if `round + 1 > current_round`, advance to `round + 1` with reason
`QCReady`.  The optional arguments are exercised only as `None` by the
repository's tests (`process_certificates(2, None, None)` still yields
`QCReady`), so the advance and its reason are driven by `round` alone. -/
def Pacemaker.processCertificates (p : Pacemaker) (round : Nat)
    (_qcRound _tcRound : Option Nat) : Pacemaker :=
  if p.currentRound < round + 1 then
    p.advance (round + 1) NewRoundReason.QCReady
  else p

/-- The three inputs the Pacemaker's control loop consumes sequentially
(§5): local timer expiry, a remote Timeout Assertion, and a
certificate-processed notification. -/
inductive PacemakerInput where
  | localTimeout (round : Nat)
  | remoteTimeout (t : PacemakerTimeout)
  | certificates (round : Nat) (qcRound tcRound : Option Nat)
deriving DecidableEq

/-- One step of the Pacemaker's control loop. -/
def Pacemaker.step (p : Pacemaker) : PacemakerInput → Pacemaker
  | .localTimeout round => p.processLocalTimeout round
  | .remoteTimeout t => p.processRemoteTimeout t
  | .certificates round qc tc => p.processCertificates round qc tc

/-- Sequentially process a list of inputs. -/
def Pacemaker.run (p : Pacemaker) : List PacemakerInput → Pacemaker
  | [] => p
  | i :: is => (p.step i).run is

/-- The interval configuration exercised by `test_pacemaker_time_interval`:
base 3000 ms, growth factor 1.5, cap 2. -/
def testInterval : ExponentialTimeInterval := ⟨3000, 3 / 2, 2⟩

lemma processLocalTimeout_currentRound (p : Pacemaker) (r : Nat) :
    (p.processLocalTimeout r).currentRound = p.currentRound := by
  unfold Pacemaker.processLocalTimeout
  split <;> rfl

lemma run_localTimeouts_currentRound (rounds : List Nat) (p : Pacemaker) :
    (p.run (rounds.map PacemakerInput.localTimeout)).currentRound = p.currentRound := by
  induction rounds generalizing p with
  | nil => rfl
  | cons r rs ih =>
    simp only [List.map_cons, Pacemaker.run, Pacemaker.step]
    rw [ih, processLocalTimeout_currentRound]

/-- C5: for the exponential interval strategy with base 3000 ms, growth
factor 1.5 and cap 2, the durations are 3000, 4500, 6750 ms for indices
0, 1, 2, and stay pinned at 6750 ms for every larger index. -/
theorem pacemaker_C5_interval_growth :
    testInterval.getRoundDuration 0 = 3000 ∧
    testInterval.getRoundDuration 1 = 4500 ∧
    testInterval.getRoundDuration 2 = 6750 ∧
    ∀ n : Nat, 2 < n → testInterval.getRoundDuration n = 6750 := by
  refine ⟨by norm_num [testInterval, ExponentialTimeInterval.getRoundDuration],
    by norm_num [testInterval, ExponentialTimeInterval.getRoundDuration],
    by norm_num [testInterval, ExponentialTimeInterval.getRoundDuration], ?_⟩
  intro n hn
  have hmin : min n 2 = 2 := min_eq_right (by omega)
  rw [testInterval, ExponentialTimeInterval.getRoundDuration]
  rw [hmin]
  norm_num

/-- Witness for C5 at the test's concrete index 1000. -/
theorem pacemaker_C5_interval_growth_witness :
    2 < 1000 ∧ testInterval.getRoundDuration 1000 = 6750 :=
  ⟨by norm_num, pacemaker_C5_interval_growth.2.2.2 1000 (by norm_num)⟩

/-- C6: a Pacemaker constructed with no persisted certificates and an
explicit highest certified round `h` starts at `current_round = h + 1`; with
highest certified round 1 its first outbound timeout broadcast carries
round 2, and with highest certified round 0 its first round is 1. -/
theorem pacemaker_C6_initial_round :
    ∀ quorumSize highestCertifiedRound : Nat,
      (Pacemaker.new quorumSize highestCertifiedRound ⟨none, none⟩).currentRound
        = highestCertifiedRound + 1 ∧
      ((Pacemaker.new quorumSize 1 ⟨none, none⟩).processLocalTimeout
          ((Pacemaker.new quorumSize 1 ⟨none, none⟩).currentRound)).broadcasts = [2] ∧
      (Pacemaker.new quorumSize 0 ⟨none, none⟩).currentRound = 1 := by
  intro q h
  refine ⟨?_, ?_, ?_⟩ <;>
    simp [Pacemaker.new, Pacemaker.processLocalTimeout,
      HighestTimeoutCertificates.highestRound, tcRoundOpt]

/-- C7: a local timeout for the current round rebroadcasts exactly the
current round number on the outbound channel, leaves `current_round` and the
emitted events unchanged, and any sequence of local timeouts alone never
changes the round. -/
theorem pacemaker_C7_local_timeout_retry (p : Pacemaker) (round : Nat)
    (h : round = p.currentRound) :
    (p.processLocalTimeout round).broadcasts = p.broadcasts ++ [p.currentRound] ∧
    (p.processLocalTimeout round).currentRound = p.currentRound ∧
    (p.processLocalTimeout round).events = p.events ∧
    ∀ rounds : List Nat,
      (p.run (rounds.map PacemakerInput.localTimeout)).currentRound = p.currentRound := by
  subst h
  refine ⟨?_, processLocalTimeout_currentRound p _, ?_, fun rounds => run_localTimeouts_currentRound rounds p⟩ <;>
    simp [Pacemaker.processLocalTimeout]

/-- Witness for C7: a fresh Pacemaker at round 2 rebroadcasts round 2. -/
theorem pacemaker_C7_local_timeout_retry_witness :
    2 = (Pacemaker.new 1 1 ⟨none, none⟩).currentRound ∧
    (((Pacemaker.new 1 1 ⟨none, none⟩).processLocalTimeout 2).broadcasts
        = (Pacemaker.new 1 1 ⟨none, none⟩).broadcasts
          ++ [(Pacemaker.new 1 1 ⟨none, none⟩).currentRound] ∧
      ((Pacemaker.new 1 1 ⟨none, none⟩).processLocalTimeout 2).currentRound
        = (Pacemaker.new 1 1 ⟨none, none⟩).currentRound ∧
      ((Pacemaker.new 1 1 ⟨none, none⟩).processLocalTimeout 2).events
        = (Pacemaker.new 1 1 ⟨none, none⟩).events ∧
      ∀ rounds : List Nat,
        ((Pacemaker.new 1 1 ⟨none, none⟩).run
            (rounds.map PacemakerInput.localTimeout)).currentRound
          = (Pacemaker.new 1 1 ⟨none, none⟩).currentRound) :=
  ⟨by decide, pacemaker_C7_local_timeout_retry _ 2 (by decide)⟩

/-- C9: a local timeout for a round other than the current round is silently
ignored — the entire Pacemaker state (current round, timer index, aggregator,
certificates, emitted events, outbound broadcasts) is left unchanged. -/
theorem pacemaker_C9_stale_local_timeout (p : Pacemaker) (round : Nat)
    (h : round ≠ p.currentRound) :
    p.processLocalTimeout round = p := by
  simp [Pacemaker.processLocalTimeout, h]

/-- Witness for C9: a stale timeout for round 5 at current round 1. -/
theorem pacemaker_C9_stale_local_timeout_witness :
    5 ≠ (Pacemaker.new 1 0 ⟨none, none⟩).currentRound ∧
    (Pacemaker.new 1 0 ⟨none, none⟩).processLocalTimeout 5
      = Pacemaker.new 1 0 ⟨none, none⟩ :=
  ⟨by decide, pacemaker_C9_stale_local_timeout _ 5 (by decide)⟩

/-- C10: immediately upon construction, before any input is processed, the
Pacemaker has emitted exactly one Round-Advance event, for round
`highest_certified_round + 1` with reason `QCReady`. -/
theorem pacemaker_C10_initial_event :
    ∀ quorumSize highestCertifiedRound : Nat,
      (Pacemaker.new quorumSize highestCertifiedRound ⟨none, none⟩).events
        = [⟨highestCertifiedRound + 1, NewRoundReason.QCReady⟩] := by
  intro q h
  simp [Pacemaker.new, HighestTimeoutCertificates.highestRound, tcRoundOpt]

/-- C2: quorum size 3, starting at round 1; remote timeouts for rounds
1, 2, 3, 4 from four distinct authors yield — after the initial event — a
Round-Advance event for round 2 with reason `Timeout` (TC for round 1,
produced as soon as three authors have timed out on rounds ≥ 1), then one
for round 3 with reason `Timeout` (TC for round 2), and no further events:
no event before the third timeout is recorded, one more after the fourth. -/
theorem pacemaker_C2_timeout_certificate_trace :
    ((Pacemaker.new 3 0 ⟨none, none⟩).run
        [.remoteTimeout ⟨1, 0, none⟩, .remoteTimeout ⟨2, 1, none⟩]).events
      = [⟨1, .QCReady⟩] ∧
    ((Pacemaker.new 3 0 ⟨none, none⟩).run
        [.remoteTimeout ⟨1, 0, none⟩, .remoteTimeout ⟨2, 1, none⟩,
         .remoteTimeout ⟨3, 2, none⟩]).events
      = [⟨1, .QCReady⟩, ⟨2, .Timeout ⟨1⟩⟩] ∧
    ((Pacemaker.new 3 0 ⟨none, none⟩).run
        [.remoteTimeout ⟨1, 0, none⟩, .remoteTimeout ⟨2, 1, none⟩,
         .remoteTimeout ⟨3, 2, none⟩, .remoteTimeout ⟨4, 3, none⟩]).events
      = [⟨1, .QCReady⟩, ⟨2, .Timeout ⟨1⟩⟩, ⟨3, .Timeout ⟨2⟩⟩] := by
  refine ⟨by decide, by decide, by decide⟩

/-- C3: starting at round 1, `process_certificates 2` then
`process_certificates 3` emit Round-Advance events for rounds 3 and 4 with
reason `QCReady`; and in general, whenever `process_certificates(round, ..)`
is called with `round + 1 > current_round`, the Pacemaker advances to
exactly `round + 1`, emitting exactly one `QCReady` event for it. -/
theorem pacemaker_C3_qc_advance :
    (((Pacemaker.new 3 0 ⟨none, none⟩).processCertificates 2 none none).processCertificates
        3 none none).events
      = [⟨1, .QCReady⟩, ⟨3, .QCReady⟩, ⟨4, .QCReady⟩] ∧
    ∀ (p : Pacemaker) (round : Nat) (qcRound tcRound : Option Nat),
      p.currentRound < round + 1 →
        (p.processCertificates round qcRound tcRound).currentRound = round + 1 ∧
        (p.processCertificates round qcRound tcRound).events
          = p.events ++ [⟨round + 1, NewRoundReason.QCReady⟩] := by
  refine ⟨by decide, ?_⟩
  intro p round qc tc h
  simp [Pacemaker.processCertificates, Pacemaker.advance, h]

/-- Witness for C3: fresh Pacemaker at round 1, certificate for round 5. -/
theorem pacemaker_C3_qc_advance_witness :
    (Pacemaker.new 3 0 ⟨none, none⟩).currentRound < 5 + 1 ∧
    (((Pacemaker.new 3 0 ⟨none, none⟩).processCertificates 5 none none).currentRound
        = 5 + 1 ∧
      ((Pacemaker.new 3 0 ⟨none, none⟩).processCertificates 5 none none).events
        = (Pacemaker.new 3 0 ⟨none, none⟩).events
          ++ [⟨5 + 1, NewRoundReason.QCReady⟩]) :=
  ⟨by decide, pacemaker_C3_qc_advance.2 _ 5 none none (by decide)⟩

lemma step_cases (p : Pacemaker) (i : PacemakerInput) :
    ((p.step i).currentRound = p.currentRound ∧ (p.step i).events = p.events) ∨
    (p.currentRound < (p.step i).currentRound ∧
      ∃ e : NewRoundEvent, (p.step i).events = p.events ++ [e] ∧
        e.round = (p.step i).currentRound) := by
  cases i with
  | localTimeout r =>
    left
    simp only [Pacemaker.step]
    unfold Pacemaker.processLocalTimeout
    split <;> exact ⟨rfl, rfl⟩
  | remoteTimeout t =>
    simp only [Pacemaker.step]
    unfold Pacemaker.processRemoteTimeout
    rcases hres : (p.timeoutManager.record t).2 with _ | tc
    · left; exact ⟨rfl, rfl⟩
    · by_cases hlt : p.currentRound < tc.round + 1
      · right
        simp only [if_pos hlt, Pacemaker.advance]
        exact ⟨hlt, ⟨tc.round + 1, NewRoundReason.Timeout tc⟩, rfl, rfl⟩
      · left
        simp only [if_neg hlt]
        exact ⟨trivial, trivial⟩
  | certificates r qc tcr =>
    simp only [Pacemaker.step]
    unfold Pacemaker.processCertificates
    by_cases hlt : p.currentRound < r + 1
    · right
      simp only [if_pos hlt, Pacemaker.advance]
      exact ⟨hlt, ⟨r + 1, NewRoundReason.QCReady⟩, rfl, rfl⟩
    · left
      simp only [if_neg hlt]
      exact ⟨trivial, trivial⟩

/-- The two-part invariant behind C1: emitted event rounds are strictly
increasing, and every emitted round is at most the current round. -/
def eventsInv (p : Pacemaker) : Prop :=
  (p.events.map (·.round)).Chain' (· < ·) ∧
    ∀ r ∈ p.events.map (·.round), r ≤ p.currentRound

lemma eventsInv_new (q h : Nat) (htc : HighestTimeoutCertificates) :
    eventsInv (Pacemaker.new q h htc) := by
  constructor
  · simp [Pacemaker.new]
  · intro r hr
    simp [Pacemaker.new] at hr ⊢
    omega

lemma eventsInv_step (p : Pacemaker) (i : PacemakerInput) (h : eventsInv p) :
    eventsInv (p.step i) := by
  rcases step_cases p i with ⟨hc, he⟩ | ⟨hc, e, he, hr⟩
  · exact ⟨by rw [he]; exact h.1, fun r hrm => by
      rw [hc]; exact h.2 r (by rwa [he] at hrm)⟩
  · constructor
    · rw [he, List.map_append]
      refine List.Chain'.append h.1 (List.chain'_singleton _) ?_
      intro x hx y hy
      simp only [List.map_cons, List.map_nil, List.head?_cons, Option.mem_def,
        Option.some.injEq] at hy
      have hx' : x ∈ p.events.map (·.round) := List.mem_of_getLast?_eq_some hx
      have := h.2 x hx'
      omega
    · intro r hrm
      rw [he, List.map_append] at hrm
      rcases List.mem_append.1 hrm with hm | hm
      · exact le_of_lt (lt_of_le_of_lt (h.2 r hm) hc)
      · simp at hm
        omega

lemma eventsInv_run (p : Pacemaker) (inputs : List PacemakerInput)
    (h : eventsInv p) : eventsInv (p.run inputs) := by
  induction inputs generalizing p with
  | nil => exact h
  | cons i is ih => exact ih _ (eventsInv_step p i h)

/-- C1: for every Pacemaker instance and every input sequence, the rounds of
the emitted Round-Advance events are strictly increasing; and every single
step either leaves the round and the event trace unchanged, or strictly
increases the round and emits exactly one event carrying the new round. -/
theorem pacemaker_C1_strictly_increasing_rounds :
    (∀ (quorumSize highestCertifiedRound : Nat)
        (htc : HighestTimeoutCertificates) (inputs : List PacemakerInput),
        (((Pacemaker.new quorumSize highestCertifiedRound htc).run inputs).events.map
            (·.round)).Chain' (· < ·)) ∧
    (∀ (p : Pacemaker) (i : PacemakerInput),
        ((p.step i).currentRound = p.currentRound ∧ (p.step i).events = p.events) ∨
        (p.currentRound < (p.step i).currentRound ∧
          ∃ e : NewRoundEvent, (p.step i).events = p.events ++ [e] ∧
            e.round = (p.step i).currentRound)) :=
  ⟨fun q h htc inputs => (eventsInv_run _ inputs (eventsInv_new q h htc)).1,
    step_cases⟩

lemma maxSatAux_sat (p : Nat → Bool) (n : Nat) (h0 : p 0 = true) :
    p (maxSatAux p n) = true := by
  induction n with
  | zero => exact h0
  | succ n ih =>
    unfold maxSatAux
    split
    · assumption
    · exact ih

lemma le_maxSatAux (p : Nat → Bool) (n k : Nat) (hk : k ≤ n) (hp : p k = true) :
    k ≤ maxSatAux p n := by
  induction n with
  | zero => simpa [maxSatAux] using hk
  | succ n ih =>
    unfold maxSatAux
    split
    · exact hk
    · rename_i hfalse
      by_cases hk' : k = n + 1
      · subst hk'
        rw [hp] at hfalse
        simp at hfalse
      · exact ih (by omega)

lemma countGe_zero (rounds : List Nat) : countGe rounds 0 = rounds.length := by
  unfold countGe
  congr 1
  apply List.filter_eq_self.2
  intro a _
  simp

lemma authorCount_le_length (l : List PacemakerTimeout) :
    authorCount l ≤ l.length := by
  unfold authorCount
  calc (l.map (·.author)).toFinset.card ≤ (l.map (·.author)).length :=
        List.toFinset_card_le _
    _ = l.length := List.length_map _ _

lemma le_maxList_of_mem {x : Nat} {l : List Nat} (h : x ∈ l) : x ≤ maxList l := by
  induction l with
  | nil => cases h
  | cons a l ih =>
    rcases List.mem_cons.1 h with h | h
    · subst h; exact le_max_left _ _
    · exact le_trans (ih h) (le_max_right _ _)

lemma countGe_eq_zero_of_max_lt (rounds : List Nat) (r : Nat)
    (h : maxList rounds < r) : countGe rounds r = 0 := by
  unfold countGe
  rw [List.length_eq_zero, List.filter_eq_nil_iff]
  intro a ha
  simp only [decide_eq_true_eq]
  have := le_maxList_of_mem ha
  omega

lemma quorumRound_spec (rounds : List Nat) (q : Nat) (hq : 0 < q)
    (hlen : q ≤ rounds.length) :
    q ≤ countGe rounds (quorumRound rounds q) ∧
    ∀ r, quorumRound rounds q < r → countGe rounds r < q := by
  constructor
  · have h0 : decide (q ≤ countGe rounds 0) = true := by
      rw [countGe_zero]
      exact decide_eq_true hlen
    have := maxSatAux_sat (fun r => decide (q ≤ countGe rounds r)) (maxList rounds) h0
    simpa using this
  · intro r hr
    by_contra hge
    push_neg at hge
    have hr_le : r ≤ maxList rounds := by
      by_contra hgt
      push_neg at hgt
      rw [countGe_eq_zero_of_max_lt _ _ hgt] at hge
      omega
    have := le_maxSatAux (fun r => decide (q ≤ countGe rounds r)) (maxList rounds) r
      hr_le (decide_eq_true hge)
    unfold quorumRound at hr
    omega

/-- The aggregator state just before the C4 witness's decisive record call:
quorum size 3, assertions for rounds 1 and 2 already recorded by two
distinct authors. -/
def c4State : PacemakerTimeoutManager := ⟨3, 0, [⟨1, 0, none⟩, ⟨2, 1, none⟩]⟩

/-- The third assertion, for round 3 by a third author. -/
def c4Timeout : PacemakerTimeout := ⟨3, 2, none⟩

/-- C4 counterexample: with quorum size 3, recording assertions for rounds
1, 2, 3 from three distinct authors makes `record` return a Timeout
Certificate for round 1, although only one distinct author's retained
assertion is for round 1 itself (well short of quorum) — so `record` does
not certify a round exactly when that same round has quorum-many
distinct-author assertions. -/
theorem pacemaker_C4_counterexample :
    ((c4State.record c4Timeout).2 = some ⟨1⟩) ∧
    ((insertTimeout c4State.received c4Timeout).filter
        (fun t => decide (t.round = 1))).length = 1 ∧
    (3 : Nat) = c4State.quorumSize := by
  refine ⟨by decide, by decide, by decide⟩

/-- C4 amended: `record` returns a Timeout Certificate exactly when the
assertion is not stale and the count of distinct retained authors reaches
quorum; the certified round `R` is then the largest round such that at least
quorum-many retained assertions are for rounds `≥ R` — assertions for later
rounds count toward earlier rounds' quorum. -/
theorem pacemaker_C4_amended (m : PacemakerTimeoutManager) (t : PacemakerTimeout)
    (hq : 0 < m.quorumSize) :
    ((m.record t).2.isSome ↔
      (m.minRound ≤ t.round ∧
        m.quorumSize ≤ authorCount (insertTimeout m.received t))) ∧
    ∀ tc : PacemakerTimeoutCertificate, (m.record t).2 = some tc →
      m.quorumSize ≤ countGe (roundsOf (insertTimeout m.received t)) tc.round ∧
      ∀ r, tc.round < r →
        countGe (roundsOf (insertTimeout m.received t)) r < m.quorumSize := by
  unfold PacemakerTimeoutManager.record
  by_cases h1 : t.round < m.minRound
  · simp only [if_pos h1]
    exact ⟨⟨fun h => by simp at h, fun h => absurd h.1 (by omega)⟩,
      fun tc htc => by simp at htc⟩
  · simp only [if_neg h1]
    by_cases h2 : m.quorumSize ≤ authorCount (insertTimeout m.received t)
    · simp only [if_pos h2]
      refine ⟨⟨fun _ => ⟨by omega, h2⟩, fun _ => rfl⟩, ?_⟩
      intro tc htc
      have hlen : m.quorumSize ≤ (roundsOf (insertTimeout m.received t)).length := by
        unfold roundsOf
        rw [List.length_map]
        exact le_trans h2 (authorCount_le_length _)
      injection htc with htc'
      rw [← htc']
      exact quorumRound_spec (roundsOf (insertTimeout m.received t)) m.quorumSize hq hlen
    · simp only [if_neg h2]
      exact ⟨⟨fun h => by simp at h, fun h => absurd h.2 h2⟩,
        fun tc htc => by simp at htc⟩

/-- Witness for C4's amended statement at the concrete counterexample
input. -/
theorem pacemaker_C4_amended_witness :
    0 < c4State.quorumSize ∧
    (((c4State.record c4Timeout).2.isSome ↔
        (c4State.minRound ≤ c4Timeout.round ∧
          c4State.quorumSize ≤ authorCount (insertTimeout c4State.received c4Timeout))) ∧
      ∀ tc : PacemakerTimeoutCertificate, (c4State.record c4Timeout).2 = some tc →
        c4State.quorumSize
            ≤ countGe (roundsOf (insertTimeout c4State.received c4Timeout)) tc.round ∧
        ∀ r, tc.round < r →
          countGe (roundsOf (insertTimeout c4State.received c4Timeout)) r
            < c4State.quorumSize) :=
  ⟨by decide, pacemaker_C4_amended c4State c4Timeout (by decide)⟩

lemma insertTimeout_replace (m : List PacemakerTimeout) (t1 t2 : PacemakerTimeout)
    (ha : t1.author = t2.author) (hr : t1.round = t2.round) :
    insertTimeout (insertTimeout m t1) t2 = insertTimeout m t2 := by
  induction m with
  | nil =>
    simp [insertTimeout, ha, hr]
  | cons t' rest ih =>
    by_cases h1 : t'.author = t1.author
    · have h2 : t'.author = t2.author := h1.trans ha
      by_cases h3 : t'.round ≤ t1.round
      · have h4 : t'.round ≤ t2.round := hr ▸ h3
        have h5 : t1.round ≤ t2.round := hr.le
        simp [insertTimeout, h1, h2, h3, h4, h5, ha]
      · have h4 : ¬ t'.round ≤ t2.round := fun h => h3 (hr ▸ h)
        simp [insertTimeout, h1, h2, h3, h4]
    · have h2 : ¬ t'.author = t2.author := fun h => h1 (h.trans ha.symm)
      simp [insertTimeout, h1, h2, ih]

lemma insertTimeout_authors_subset (m : List PacemakerTimeout)
    (t : PacemakerTimeout) :
    ∀ x ∈ (insertTimeout m t).map (·.author),
      x = t.author ∨ x ∈ m.map (·.author) := by
  induction m with
  | nil =>
    intro x hx
    simp [insertTimeout] at hx
    exact Or.inl hx
  | cons t' rest ih =>
    intro x hx
    unfold insertTimeout at hx
    by_cases h1 : t'.author = t.author
    · rw [if_pos h1] at hx
      by_cases h2 : t'.round ≤ t.round
      · rw [if_pos h2] at hx
        simp at hx ⊢
        tauto
      · rw [if_neg h2] at hx
        simp at hx ⊢
        tauto
    · rw [if_neg h1] at hx
      simp only [List.map_cons, List.mem_cons] at hx ⊢
      rcases hx with h | h
      · tauto
      · rcases ih x h with h' | h' <;> tauto

lemma authorCount_insert_le (m : List PacemakerTimeout) (t : PacemakerTimeout) :
    authorCount (insertTimeout m t) ≤ authorCount m + 1 := by
  unfold authorCount
  have hsub : ((insertTimeout m t).map (·.author)).toFinset ⊆
      insert t.author ((m.map (·.author)).toFinset) := by
    intro x hx
    rw [List.mem_toFinset] at hx
    rcases insertTimeout_authors_subset m t x hx with h | h
    · exact Finset.mem_insert.2 (Or.inl h)
    · exact Finset.mem_insert.2 (Or.inr (List.mem_toFinset.2 h))
  calc ((insertTimeout m t).map (·.author)).toFinset.card
      ≤ (insert t.author ((m.map (·.author)).toFinset)).card :=
        Finset.card_le_card hsub
    _ ≤ (m.map (·.author)).toFinset.card + 1 := Finset.card_insert_le _ _

lemma record_none_state (m : PacemakerTimeoutManager) (t : PacemakerTimeout)
    (h : (m.record t).2 = none) :
    (m.record t).1 = m ∨
    ((m.record t).1 = { m with received := insertTimeout m.received t } ∧
      ¬ t.round < m.minRound ∧
      ¬ m.quorumSize ≤ authorCount (insertTimeout m.received t)) := by
  unfold PacemakerTimeoutManager.record at h ⊢
  by_cases h1 : t.round < m.minRound
  · rw [if_pos h1]
    exact Or.inl rfl
  · rw [if_neg h1] at h ⊢
    by_cases h2 : m.quorumSize ≤ authorCount (insertTimeout m.received t)
    · rw [if_pos h2] at h
      simp at h
    · rw [if_neg h2]
      exact Or.inr ⟨rfl, h1, h2⟩

/-- C8: two Timeout Assertions from the same author for the same round
count as one, never two: the second insertion replaces the first (so
inserting both is the same as inserting only the later one), the distinct
author count grows by at most one, and when the first `record` produced no
certificate, recording both assertions leaves the aggregator exactly as if
only the later one had been recorded. -/
theorem pacemaker_C8_equivocation (received : List PacemakerTimeout)
    (agg : PacemakerTimeoutManager) (t1 t2 : PacemakerTimeout)
    (hauthor : t1.author = t2.author) (hround : t1.round = t2.round) :
    insertTimeout (insertTimeout received t1) t2 = insertTimeout received t2 ∧
    authorCount (insertTimeout (insertTimeout received t1) t2)
      ≤ authorCount received + 1 ∧
    ((agg.record t1).2 = none →
      (agg.record t1).1.record t2 = agg.record t2) := by
  refine ⟨insertTimeout_replace received t1 t2 hauthor hround, ?_, ?_⟩
  · rw [insertTimeout_replace received t1 t2 hauthor hround]
    exact authorCount_insert_le received t2
  · intro hnone
    rcases record_none_state agg t1 hnone with h | ⟨hstate, h1, _⟩
    · rw [h]
    · rw [hstate]
      have h1' : ¬ t2.round < agg.minRound := fun hlt => h1 (by omega)
      have hins := insertTimeout_replace agg.received t1 t2 hauthor hround
      unfold PacemakerTimeoutManager.record
      simp only [if_neg h1', hins]

/-- Witness for C8: the same author asserts round 1 twice with differing
content, against an empty aggregator with quorum size 2. -/
theorem pacemaker_C8_equivocation_witness :
    (⟨1, 0, none⟩ : PacemakerTimeout).author
        = (⟨1, 0, some ⟨0⟩⟩ : PacemakerTimeout).author ∧
    (⟨1, 0, none⟩ : PacemakerTimeout).round
        = (⟨1, 0, some ⟨0⟩⟩ : PacemakerTimeout).round ∧
    (insertTimeout (insertTimeout [] ⟨1, 0, none⟩) ⟨1, 0, some ⟨0⟩⟩
        = insertTimeout [] ⟨1, 0, some ⟨0⟩⟩ ∧
      authorCount (insertTimeout (insertTimeout [] ⟨1, 0, none⟩) ⟨1, 0, some ⟨0⟩⟩)
        ≤ authorCount [] + 1 ∧
      (((⟨2, 0, []⟩ : PacemakerTimeoutManager).record ⟨1, 0, none⟩).2 = none →
        ((⟨2, 0, []⟩ : PacemakerTimeoutManager).record ⟨1, 0, none⟩).1.record
            ⟨1, 0, some ⟨0⟩⟩
          = (⟨2, 0, []⟩ : PacemakerTimeoutManager).record ⟨1, 0, some ⟨0⟩⟩)) :=
  ⟨rfl, rfl, pacemaker_C8_equivocation [] ⟨2, 0, []⟩ ⟨1, 0, none⟩ ⟨1, 0, some ⟨0⟩⟩ rfl rfl⟩
